import Mathlib

set_option maxHeartbeats 1000000

/-!
A verification development for the dead store elimination pass in
third_party/move/move-compiler-v2/src/pipeline/dead_store_elimination.rs.

The embedding choices:
* CodeOffset and TempIndex are Nat.
* BTreeSet of CodeOffset becomes Finset Nat; BTreeSet iteration order
  (ascending) is recovered with Finset.sort where the order can matter.
* BTreeMap of CodeOffset to BTreeSet becomes a function
  Nat → Option (Finset Nat), so that a present-but-empty entry is
  distinguished from an absent entry, exactly as in the source.
* A Rust panic (expect) is modelled as Option.none.
* The unbounded extraction loop carries explicit fuel; running out of fuel
  is kept distinct from a panic.
-/

/-- Stackless bytecode instructions, restricted to the shapes the pass
inspects: an assignment, a constant load, or any other instruction. -/
inductive Bytecode where
  | Assign (dst src : Nat)
  | Load (dst : Nat)
  | Other
deriving DecidableEq, Repr

/-- Modelled from the spec: the live-variable annotation produced by the
upstream liveness pass, whose source is not part of this repository slice
(spec section 3: LivenessInfo(offset).after maps each live local to the set
of offsets that use it; absence means the local is not live after the
offset). -/
def LiveVarAnnotation : Type := Nat → Nat → Option (Finset Nat)

/-- A liveness annotation is valid when every recorded usage offset lies
strictly after the definition offset (spec: usage offsets are later
offsets; uses follow definitions). -/
def ValidLiveness (lv : LiveVarAnnotation) : Prop :=
  ∀ o d s, lv o d = some s → ∀ u ∈ s, o < u

/-- The definition-use graph of the pass: forward edges (children),
backward edges (parents) and the set of nodes currently known dead. -/
structure DefUseGraph where
  children : Nat → Option (Finset Nat)
  parents : Nat → Option (Finset Nat)
  dead : Finset Nat

namespace DefUseGraph

/-- Update a keyed map at one key. -/
def setEntry (m : Nat → Option (Finset Nat)) (k : Nat) (v : Option (Finset Nat)) :
    Nat → Option (Finset Nat) :=
  fun x => if x = k then v else m x

/-- The child set of a node, empty when the entry is absent. -/
def cGet (g : DefUseGraph) (a : Nat) : Finset Nat := (g.children a).getD ∅

/-- The parent set of a node, empty when the entry is absent. -/
def pGet (g : DefUseGraph) (b : Nat) : Finset Nat := (g.parents b).getD ∅

/-- DefUseGraph::incorporate_definition: incorporate a definition of local
dst at a given offset, using the liveness annotation; when alwaysMark is
set the offset is marked dead regardless of liveness. -/
def incorporateDefinition (g : DefUseGraph) (dst offset : Nat)
    (liveVars : LiveVarAnnotation) (alwaysMark : Bool) : DefUseGraph :=
  match liveVars offset dst with
  | some live =>
      let g1 := if alwaysMark then { g with dead := insert offset g.dead } else g
      { g1 with
        children := setEntry g1.children offset (some ((g1.children offset).getD ∅ ∪ live)),
        parents := fun x =>
          if x ∈ live then some (insert offset ((g1.parents x).getD ∅)) else g1.parents x }
  | none => { g with dead := insert offset g.dead }

/-- One step of DefUseGraph::populate_from: dispatch on the instruction
found at the given offset. -/
def incorporateInstr (liveVars : LiveVarAnnotation) (g : DefUseGraph)
    (offset : Nat) : Bytecode → DefUseGraph
  | .Assign dst src =>
      if dst = src then incorporateDefinition g dst offset liveVars true
      else incorporateDefinition g dst offset liveVars false
  | .Load dst => incorporateDefinition g dst offset liveVars false
  | .Other => g

/-- DefUseGraph::populate_from, walking the instructions starting at a
given offset. -/
def populateFromAux (liveVars : LiveVarAnnotation) :
    Nat → List Bytecode → DefUseGraph → DefUseGraph
  | _, [], g => g
  | offset, instr :: rest, g =>
      populateFromAux liveVars (offset + 1) rest (incorporateInstr liveVars g offset instr)

/-- DefUseGraph::new: the graph built from a function body and its
liveness annotation. -/
def new (code : List Bytecode) (liveVars : LiveVarAnnotation) : DefUseGraph :=
  populateFromAux liveVars 0 code ⟨fun _ => none, fun _ => none, ∅⟩

/-- DefUseGraph::re_evaluate_death: a parent with no children entry, or all
of whose children are dead, is marked dead. -/
def reEvaluateDeath (g : DefUseGraph) (parent : Nat) : DefUseGraph :=
  match g.children parent with
  | some cs => if cs ⊆ g.dead then { g with dead := insert parent g.dead } else g
  | none => { g with dead := insert parent g.dead }

/-- DefUseGraph::disconnect_from_parents: remove the node from the child
set of each of its parents and drop its parents entry; none models the
panic raised when some parent has no children entry. -/
def disconnectFromParents (g : DefUseGraph) (node : Nat) :
    Option (Finset Nat × DefUseGraph) :=
  match g.parents node with
  | some ps =>
      if ∀ p ∈ ps, (g.children p).isSome then
        some (ps, { g with
          parents := setEntry g.parents node none,
          children := fun x =>
            if x ∈ ps then (g.children x).map (fun s => s.erase node) else g.children x })
      else none
  | none => some (∅, g)

/-- DefUseGraph::disconnect_from_children: remove the node from the parent
set of each of its children and drop its children entry; none models the
panic raised when some child has no parents entry. -/
def disconnectFromChildren (g : DefUseGraph) (node : Nat) :
    Option (Finset Nat × DefUseGraph) :=
  match g.children node with
  | some cs =>
      if ∀ c ∈ cs, (g.parents c).isSome then
        some (cs, { g with
          children := setEntry g.children node none,
          parents := fun x =>
            if x ∈ cs then (g.parents x).map (fun s => s.erase node) else g.parents x })
      else none
  | none => some (∅, g)

/-- The reconnection loop of DefUseGraph::remove_a_dead_node: for every
pair of a parent p and a child c, insert the edge from p to c in both
adjacency maps (an entry is created only when the loop body runs). -/
def reconnect (g : DefUseGraph) (ps cs : Finset Nat) : DefUseGraph :=
  { g with
    children := fun x =>
      if x ∈ ps ∧ cs.Nonempty then some ((g.children x).getD ∅ ∪ cs)
      else g.children x,
    parents := fun x =>
      if x ∈ cs ∧ ps.Nonempty then some ((g.parents x).getD ∅ ∪ ps)
      else g.parents x }

/-- The body of DefUseGraph::remove_a_dead_node once the popped node is
fixed: disconnect it from parents and children, reconnect every parent to
every child, and re-evaluate the parents for death in ascending order
(BTreeSet iteration order); none models a panic in a disconnect helper. -/
def removeNode (g0 : DefUseGraph) (node : Nat) : Option (Option (Nat × DefUseGraph)) :=
  match disconnectFromParents g0 node with
  | none => none
  | some (ps, g1) =>
    match disconnectFromChildren g1 node with
    | none => none
    | some (cs, g2) =>
        some (some (node, (ps.sort (· ≤ ·)).foldl reEvaluateDeath (reconnect g2 ps cs)))

/-- DefUseGraph::remove_a_dead_node: pop the largest dead node and process
it with removeNode; the outer none models a panic inside a disconnect
helper, the inner none an empty dead set. -/
def removeADeadNode (g : DefUseGraph) : Option (Option (Nat × DefUseGraph)) :=
  if h : g.dead.Nonempty then
    removeNode { g with dead := g.dead.erase (g.dead.max' h) } (g.dead.max' h)
  else some none

/-- The loop of DefUseGraph::dead_stores, with explicit fuel: the result is
none on a panic, some none on fuel exhaustion, and some (some s) when the
dead set empties with accumulated result s. -/
def deadStoresLoop : Nat → DefUseGraph → Finset Nat → Option (Option (Finset Nat))
  | 0, _, _ => some none
  | fuel + 1, g, acc =>
      match removeADeadNode g with
      | none => none
      | some none => some (some acc)
      | some (some (n, g1)) => deadStoresLoop fuel g1 (insert n acc)

/-- DefUseGraph::dead_stores under the given fuel. -/
def deadStores (g : DefUseGraph) (fuel : Nat) : Option (Option (Finset Nat)) :=
  deadStoresLoop fuel g ∅

end DefUseGraph

/-- Is an instruction a restricted definition (Assign or Load)? -/
def isRestrictedDef : Bytecode → Bool
  | .Assign _ _ => true
  | .Load _ => true
  | .Other => false

/-- The offsets of the restricted definitions of a function body. -/
def restrictedDefs (code : List Bytecode) : Finset Nat :=
  (Finset.range code.length).filter fun o => isRestrictedDef (code.getD o .Other)

namespace DeadStoreElimination

/-- DeadStoreElimination::transform, walking the code from a given offset:
copy exactly the instructions whose original offset is not dead. -/
def transformAux (dead : Finset Nat) : Nat → List Bytecode → List Bytecode
  | _, [] => []
  | offset, instr :: rest =>
      if offset ∈ dead then transformAux dead (offset + 1) rest
      else instr :: transformAux dead (offset + 1) rest

/-- DeadStoreElimination::transform. -/
def transform (code : List Bytecode) (dead : Finset Nat) : List Bytecode :=
  transformAux dead 0 code

end DeadStoreElimination

/-- The destination local of a restricted definition, if any. -/
def defOf : Bytecode → Option Nat
  | .Assign dst _ => some dst
  | .Load dst => some dst
  | .Other => none

/-- Is an instruction a self-assignment? -/
def isSelfAssign : Bytecode → Bool
  | .Assign dst src => dst == src
  | _ => false

/-- The condition under which graph construction marks the offset of the
given instruction dead. -/
def MarksDead (lv : LiveVarAnnotation) (o : Nat) : Bytecode → Prop
  | .Assign dst src => dst = src ∨ lv o dst = none
  | .Load dst => lv o dst = none
  | .Other => False

/-- The edges contributed by walking a code suffix starting at offset i:
a use edge from a to b exists when the instruction at a defines a local
whose live-after set at a contains b. -/
def EdgeSpec (lv : LiveVarAnnotation) (i : Nat) (rest : List Bytecode) (a b : Nat) : Prop :=
  ∃ k instr dst live, rest[k]? = some instr ∧ defOf instr = some dst ∧
    a = i + k ∧ lv a dst = some live ∧ b ∈ live

/-- The dead marks contributed by walking a code suffix starting at
offset i. -/
def DeadSpec (lv : LiveVarAnnotation) (i : Nat) (rest : List Bytecode) (o : Nat) : Prop :=
  ∃ k instr, rest[k]? = some instr ∧ o = i + k ∧ MarksDead lv o instr

namespace DefUseGraph

/-- Edge symmetry: the children and parents maps describe the same edge
relation. -/
def EdgeSymm (g : DefUseGraph) : Prop :=
  ∀ a b, b ∈ g.cGet a ↔ a ∈ g.pGet b

/-- Every edge points strictly forward. -/
def EdgesIncreasing (g : DefUseGraph) : Prop :=
  ∀ a b, b ∈ g.cGet a → a < b

/-- Every edge originates at an offset of the set D. -/
def OriginsIn (D : Finset Nat) (g : DefUseGraph) : Prop :=
  ∀ a b, b ∈ g.cGet a → a ∈ D

/-- The graph invariant maintained by construction and extraction, with D
the set of restricted-definition offsets. -/
structure GInv (D : Finset Nat) (g : DefUseGraph) : Prop where
  symm : EdgeSymm g
  incr : EdgesIncreasing g
  origins : OriginsIn D g
  deadSub : g.dead ⊆ D

/-- A node that has been extracted: it is not dead, occurs in no edge and
has empty child and parent sets. -/
def Untracked (g : DefUseGraph) (m : Nat) : Prop :=
  m ∉ g.dead ∧ (∀ x, m ∉ g.cGet x ∧ m ∉ g.pGet x) ∧ g.cGet m = ∅ ∧ g.pGet m = ∅

/-- The invariant of the extraction loop: the graph invariant, every
already-emitted offset is fully untracked, and the emitted set stays
inside D. -/
def LInv (D : Finset Nat) (g : DefUseGraph) (acc : Finset Nat) : Prop :=
  GInv D g ∧ (∀ m ∈ acc, Untracked g m) ∧ acc ⊆ D

/-- The graph states reachable from construction by dead-node removal
steps. -/
inductive Reachable (code : List Bytecode) (lv : LiveVarAnnotation) : DefUseGraph → Prop
  | base : Reachable code lv (new code lv)
  | step {g n g'} : Reachable code lv g →
      removeADeadNode g = some (some (n, g')) → Reachable code lv g'

/-- The graph after one successful removal step (identity otherwise). -/
def afterStep (g : DefUseGraph) : DefUseGraph :=
  match removeADeadNode g with
  | some (some (_, g')) => g'
  | _ => g

end DefUseGraph

/-- Modelled from the spec: the per-offset annotation bundle attached to a
function (the Annotations type lives outside this repository slice). It
may hold the live-variable annotation, plus opaque other annotations. -/
structure Annotations where
  liveVar : Option LiveVarAnnotation
  others : List Nat

/-- The empty annotation bundle, the result of Annotations::clear. -/
def Annotations.empty : Annotations := ⟨none, []⟩

/-- Modelled from the spec: the fields of FunctionData that the pass reads
or writes (code and annotations), plus an opaque remainder standing for
every other field, for the frame condition. -/
structure FunctionData where
  code : List Bytecode
  annotations : Annotations
  rest : Nat

namespace DeadStoreElimination

/-- DeadStoreElimination::process (FunctionTargetProcessor::process): skip
native functions; signal a fatal error (the outer none) when the
live-variable annotation is missing — the expect panic in the source — or
when a disconnect helper panics; some none records fuel exhaustion of the
modelled loop; otherwise rewrite the code and clear the annotation
bundle. -/
def process (isNative : Bool) (data : FunctionData) : Option (Option FunctionData) :=
  if isNative then some (some data)
  else
    match data.annotations.liveVar with
    | none => none
    | some liveVars =>
        let g := DefUseGraph.new data.code liveVars
        match DefUseGraph.deadStores g ((restrictedDefs data.code).card + 1) with
        | some (some dead) =>
            some (some { data with
              code := transform data.code dead,
              annotations := Annotations.empty })
        | some none => some none
        | none => none

/-- The function data produced by a fully successful run of the pass
(identity otherwise). -/
def processedOf (isNative : Bool) (data : FunctionData) : FunctionData :=
  match process isNative data with
  | some (some d) => d
  | _ => data

end DeadStoreElimination

/-- An annotation under which no local is ever live. -/
def noLiveAnnot : LiveVarAnnotation := fun _ _ => none

/-- A concrete graph with the chain 0 -> 1 -> 2 and node 1 marked dead. -/
def chainGraph : DefUseGraph :=
  ⟨fun x => if x = 0 then some {1} else if x = 1 then some {2} else none,
   fun x => if x = 1 then some {0} else if x = 2 then some {1} else none,
   {1}⟩

/-- A single constant load. -/
def loadCode : List Bytecode := [Bytecode.Load 0]

/-- A dead constant load followed by a side-effectful instruction. -/
def loadOtherCode : List Bytecode := [Bytecode.Load 0, Bytecode.Other]

/-- An annotation giving local 0 a present-but-empty usage set after
offset 0. -/
def emptyUseAnnot : LiveVarAnnotation :=
  fun o d => if o = 0 ∧ d = 0 then some ∅ else none

/-- A self-assignment whose target is then used at offset 1. -/
def selfAssignCode : List Bytecode := [Bytecode.Assign 0 0, Bytecode.Other]

/-- An annotation making local 0 live after offset 0 with use at 1. -/
def selfAssignAnnot : LiveVarAnnotation :=
  fun o d => if o = 0 ∧ d = 0 then some {1} else none

/-- Function data with a liveness annotation present. -/
def dataWithAnnot : FunctionData := ⟨loadCode, ⟨some noLiveAnnot, [3]⟩, 7⟩

/-- Function data whose annotation bundle lacks the liveness annotation. -/
def dataMissingAnnot : FunctionData := ⟨loadCode, ⟨none, [3]⟩, 7⟩

theorem defOf_isRestricted {instr : Bytecode} {dst : Nat} (h : defOf instr = some dst) :
    isRestrictedDef instr = true := by
  cases instr <;> simp_all [defOf, isRestrictedDef]

theorem marksDead_defOf {lv : LiveVarAnnotation} {o : Nat} {instr : Bytecode}
    (h : MarksDead lv o instr) : ∃ dst, defOf instr = some dst := by
  cases instr <;> simp_all [MarksDead, defOf]

theorem mem_restrictedDefs {code : List Bytecode} {o : Nat} {instr : Bytecode}
    (h : code[o]? = some instr) (hr : isRestrictedDef instr = true) :
    o ∈ restrictedDefs code := by
  have hlt : o < code.length := by
    by_contra hge
    rw [List.getElem?_eq_none (by omega)] at h
    exact Option.noConfusion h
  have hgetD : code.getD o .Other = instr := by
    rw [List.getD_eq_getElem?_getD, h]; rfl
  simp only [restrictedDefs, Finset.mem_filter, Finset.mem_range]
  exact ⟨hlt, by rw [hgetD]; exact hr⟩

theorem edgeSpec_nil {lv : LiveVarAnnotation} {i a b : Nat} : ¬ EdgeSpec lv i [] a b := by
  rintro ⟨k, instr, dst, live, hk, _⟩
  simp at hk

theorem edgeSpec_cons {lv : LiveVarAnnotation} {i a b : Nat} {c : Bytecode}
    {rest : List Bytecode} :
    EdgeSpec lv i (c :: rest) a b ↔
      (a = i ∧ ∃ dst live, defOf c = some dst ∧ lv i dst = some live ∧ b ∈ live) ∨
      EdgeSpec lv (i + 1) rest a b := by
  constructor
  · rintro ⟨k, instr, dst, live, hk, hdef, ha, hlv, hb⟩
    cases k with
    | zero =>
        left
        simp only [List.getElem?_cons_zero, Option.some.injEq] at hk
        subst hk
        have ha' : a = i := by omega
        subst ha'
        exact ⟨rfl, dst, live, hdef, hlv, hb⟩
    | succ k =>
        right
        exact ⟨k, instr, dst, live, by simpa using hk, hdef, by omega, hlv, hb⟩
  · rintro (⟨ha, dst, live, hdef, hlv, hb⟩ | ⟨k, instr, dst, live, hk, hdef, ha, hlv, hb⟩)
    · subst ha
      exact ⟨0, c, dst, live, by simp, hdef, by omega, hlv, hb⟩
    · exact ⟨k + 1, instr, dst, live, by simpa using hk, hdef, by omega, hlv, hb⟩

theorem deadSpec_nil {lv : LiveVarAnnotation} {i o : Nat} : ¬ DeadSpec lv i [] o := by
  rintro ⟨k, instr, hk, _⟩
  simp at hk

theorem deadSpec_cons {lv : LiveVarAnnotation} {i o : Nat} {c : Bytecode}
    {rest : List Bytecode} :
    DeadSpec lv i (c :: rest) o ↔
      (o = i ∧ MarksDead lv i c) ∨ DeadSpec lv (i + 1) rest o := by
  constructor
  · rintro ⟨k, instr, hk, ho, hm⟩
    cases k with
    | zero =>
        left
        simp only [List.getElem?_cons_zero, Option.some.injEq] at hk
        subst hk
        have ho' : o = i := by omega
        subst ho'
        exact ⟨rfl, hm⟩
    | succ k =>
        right
        exact ⟨k, instr, by simpa using hk, by omega, hm⟩
  · rintro (⟨ho, hm⟩ | ⟨k, instr, hk, ho, hm⟩)
    · subst ho
      exact ⟨0, c, by simp, by omega, hm⟩
    · exact ⟨k + 1, instr, by simpa using hk, by omega, hm⟩

namespace DefUseGraph

theorem mem_cGet_isSome {g : DefUseGraph} {a b : Nat} (h : b ∈ g.cGet a) :
    (g.children a).isSome = true := by
  unfold cGet at h
  cases hc : g.children a with
  | none => rw [hc] at h; exact absurd h (by simp)
  | some s => rfl

theorem mem_pGet_isSome {g : DefUseGraph} {a b : Nat} (h : a ∈ g.pGet b) :
    (g.parents b).isSome = true := by
  unfold pGet at h
  cases hc : g.parents b with
  | none => rw [hc] at h; exact absurd h (by simp)
  | some s => rfl

theorem incDef_none {g : DefUseGraph} {dst offset : Nat} {lv : LiveVarAnnotation}
    {mk : Bool} (h : lv offset dst = none) :
    incorporateDefinition g dst offset lv mk = { g with dead := insert offset g.dead } := by
  unfold incorporateDefinition
  rw [h]

theorem incDef_some {g : DefUseGraph} {dst offset : Nat} {lv : LiveVarAnnotation}
    {mk : Bool} {live : Finset Nat} (h : lv offset dst = some live) :
    incorporateDefinition g dst offset lv mk =
      (let g1 := if mk then { g with dead := insert offset g.dead } else g
       { g1 with
         children := setEntry g1.children offset (some ((g1.children offset).getD ∅ ∪ live)),
         parents := fun x =>
           if x ∈ live then some (insert offset ((g1.parents x).getD ∅)) else g1.parents x }) := by
  unfold incorporateDefinition
  rw [h]

theorem incDef_children_some {g : DefUseGraph} {dst offset : Nat} {lv : LiveVarAnnotation}
    {mk : Bool} {live : Finset Nat} (h : lv offset dst = some live) (x : Nat) :
    (incorporateDefinition g dst offset lv mk).children x =
      if x = offset then some ((g.children offset).getD ∅ ∪ live) else g.children x := by
  rw [incDef_some h]
  cases mk <;> simp [setEntry]

theorem incDef_children_none {g : DefUseGraph} {dst offset : Nat} {lv : LiveVarAnnotation}
    {mk : Bool} (h : lv offset dst = none) (x : Nat) :
    (incorporateDefinition g dst offset lv mk).children x = g.children x := by
  rw [incDef_none h]

theorem incDef_parents_some {g : DefUseGraph} {dst offset : Nat} {lv : LiveVarAnnotation}
    {mk : Bool} {live : Finset Nat} (h : lv offset dst = some live) (x : Nat) :
    (incorporateDefinition g dst offset lv mk).parents x =
      if x ∈ live then some (insert offset ((g.parents x).getD ∅)) else g.parents x := by
  rw [incDef_some h]
  cases mk <;> simp

theorem incDef_parents_none {g : DefUseGraph} {dst offset : Nat} {lv : LiveVarAnnotation}
    {mk : Bool} (h : lv offset dst = none) (x : Nat) :
    (incorporateDefinition g dst offset lv mk).parents x = g.parents x := by
  rw [incDef_none h]

theorem incDef_dead_some {g : DefUseGraph} {dst offset : Nat} {lv : LiveVarAnnotation}
    {mk : Bool} {live : Finset Nat} (h : lv offset dst = some live) :
    (incorporateDefinition g dst offset lv mk).dead =
      if mk then insert offset g.dead else g.dead := by
  rw [incDef_some h]
  cases mk <;> simp

theorem incDef_dead_none {g : DefUseGraph} {dst offset : Nat} {lv : LiveVarAnnotation}
    {mk : Bool} (h : lv offset dst = none) :
    (incorporateDefinition g dst offset lv mk).dead = insert offset g.dead := by
  rw [incDef_none h]

theorem incDef_cGet_mem {g : DefUseGraph} {dst i : Nat} {lv : LiveVarAnnotation}
    {mk : Bool} {a b : Nat} :
    b ∈ (incorporateDefinition g dst i lv mk).cGet a ↔
      b ∈ g.cGet a ∨ (a = i ∧ ∃ live, lv i dst = some live ∧ b ∈ live) := by
  unfold cGet
  cases hl : lv i dst with
  | none => rw [incDef_children_none hl]; simp
  | some live =>
      rw [incDef_children_some hl]
      by_cases ha : a = i
      · subst ha; simp [hl]
      · simp [ha]

theorem incDef_pGet_mem {g : DefUseGraph} {dst i : Nat} {lv : LiveVarAnnotation}
    {mk : Bool} {a b : Nat} :
    a ∈ (incorporateDefinition g dst i lv mk).pGet b ↔
      a ∈ g.pGet b ∨ (a = i ∧ ∃ live, lv i dst = some live ∧ b ∈ live) := by
  unfold pGet
  cases hl : lv i dst with
  | none => rw [incDef_parents_none hl]; simp
  | some live =>
      rw [incDef_parents_some hl]
      by_cases hb : b ∈ live
      · simp [hb, hl]
        tauto
      · simp [hb, hl]

theorem incDef_dead_mem {g : DefUseGraph} {dst i : Nat} {lv : LiveVarAnnotation}
    {mk : Bool} {o : Nat} :
    o ∈ (incorporateDefinition g dst i lv mk).dead ↔
      o ∈ g.dead ∨ (o = i ∧ (mk = true ∨ lv i dst = none)) := by
  cases hl : lv i dst with
  | none =>
      rw [incDef_dead_none hl]
      simp [Finset.mem_insert]
      tauto
  | some live =>
      rw [incDef_dead_some hl]
      cases mk <;> simp [Finset.mem_insert, hl] <;> tauto

theorem incInstr_cGet_mem {g : DefUseGraph} {i : Nat} {lv : LiveVarAnnotation}
    {instr : Bytecode} {a b : Nat} :
    b ∈ (incorporateInstr lv g i instr).cGet a ↔
      b ∈ g.cGet a ∨
        (a = i ∧ ∃ dst live, defOf instr = some dst ∧ lv i dst = some live ∧ b ∈ live) := by
  cases instr with
  | Assign dst src =>
      unfold incorporateInstr
      by_cases h : dst = src <;> simp [h, incDef_cGet_mem, defOf]
  | Load dst => simp [incorporateInstr, incDef_cGet_mem, defOf]
  | Other => simp [incorporateInstr, defOf]

theorem incInstr_pGet_mem {g : DefUseGraph} {i : Nat} {lv : LiveVarAnnotation}
    {instr : Bytecode} {a b : Nat} :
    a ∈ (incorporateInstr lv g i instr).pGet b ↔
      a ∈ g.pGet b ∨
        (a = i ∧ ∃ dst live, defOf instr = some dst ∧ lv i dst = some live ∧ b ∈ live) := by
  cases instr with
  | Assign dst src =>
      unfold incorporateInstr
      by_cases h : dst = src <;> simp [h, incDef_pGet_mem, defOf]
  | Load dst => simp [incorporateInstr, incDef_pGet_mem, defOf]
  | Other => simp [incorporateInstr, defOf]

theorem incInstr_dead_mem {g : DefUseGraph} {i : Nat} {lv : LiveVarAnnotation}
    {instr : Bytecode} {o : Nat} :
    o ∈ (incorporateInstr lv g i instr).dead ↔
      o ∈ g.dead ∨ (o = i ∧ MarksDead lv i instr) := by
  cases instr with
  | Assign dst src =>
      unfold incorporateInstr
      by_cases h : dst = src <;> simp [h, incDef_dead_mem, MarksDead] <;> tauto
  | Load dst => simp [incorporateInstr, incDef_dead_mem, MarksDead]
  | Other => simp [incorporateInstr, MarksDead]

theorem populate_cGet_mem {lv : LiveVarAnnotation} :
    ∀ (rest : List Bytecode) (i : Nat) (g : DefUseGraph) (a b : Nat),
      b ∈ (populateFromAux lv i rest g).cGet a ↔
        b ∈ g.cGet a ∨ EdgeSpec lv i rest a b := by
  intro rest
  induction rest with
  | nil => intro i g a b; simp only [populateFromAux]; simp [edgeSpec_nil]
  | cons c rest ih =>
      intro i g a b
      simp only [populateFromAux]
      rw [ih, incInstr_cGet_mem, edgeSpec_cons]
      exact or_assoc

theorem populate_pGet_mem {lv : LiveVarAnnotation} :
    ∀ (rest : List Bytecode) (i : Nat) (g : DefUseGraph) (a b : Nat),
      a ∈ (populateFromAux lv i rest g).pGet b ↔
        a ∈ g.pGet b ∨ EdgeSpec lv i rest a b := by
  intro rest
  induction rest with
  | nil => intro i g a b; simp only [populateFromAux]; simp [edgeSpec_nil]
  | cons c rest ih =>
      intro i g a b
      simp only [populateFromAux]
      rw [ih, incInstr_pGet_mem, edgeSpec_cons]
      exact or_assoc

theorem populate_dead_mem {lv : LiveVarAnnotation} :
    ∀ (rest : List Bytecode) (i : Nat) (g : DefUseGraph) (o : Nat),
      o ∈ (populateFromAux lv i rest g).dead ↔
        o ∈ g.dead ∨ DeadSpec lv i rest o := by
  intro rest
  induction rest with
  | nil => intro i g o; simp only [populateFromAux]; simp [deadSpec_nil]
  | cons c rest ih =>
      intro i g o
      simp only [populateFromAux]
      rw [ih, incInstr_dead_mem, deadSpec_cons]
      exact or_assoc

theorem new_cGet_mem {code : List Bytecode} {lv : LiveVarAnnotation} {a b : Nat} :
    b ∈ (new code lv).cGet a ↔ EdgeSpec lv 0 code a b := by
  unfold new
  rw [populate_cGet_mem]
  simp [cGet]

theorem new_pGet_mem {code : List Bytecode} {lv : LiveVarAnnotation} {a b : Nat} :
    a ∈ (new code lv).pGet b ↔ EdgeSpec lv 0 code a b := by
  unfold new
  rw [populate_pGet_mem]
  simp [pGet]

theorem new_dead_mem {code : List Bytecode} {lv : LiveVarAnnotation} {o : Nat} :
    o ∈ (new code lv).dead ↔ DeadSpec lv 0 code o := by
  unfold new
  rw [populate_dead_mem]
  simp

theorem new_symm (code : List Bytecode) (lv : LiveVarAnnotation) :
    EdgeSymm (new code lv) := by
  intro a b
  rw [new_cGet_mem, new_pGet_mem]

theorem new_incr {code : List Bytecode} {lv : LiveVarAnnotation}
    (hv : ValidLiveness lv) : EdgesIncreasing (new code lv) := by
  intro a b hb
  rw [new_cGet_mem] at hb
  obtain ⟨k, instr, dst, live, hk, hdef, ha, hlv, hbl⟩ := hb
  exact hv _ _ _ hlv b hbl

theorem new_origins (code : List Bytecode) (lv : LiveVarAnnotation) :
    OriginsIn (restrictedDefs code) (new code lv) := by
  intro a b hb
  rw [new_cGet_mem] at hb
  obtain ⟨k, instr, dst, live, hk, hdef, ha, hlv, hbl⟩ := hb
  have hk' : code[a]? = some instr := by
    have : a = k := by omega
    rwa [this]
  exact mem_restrictedDefs hk' (defOf_isRestricted hdef)

theorem new_deadSub (code : List Bytecode) (lv : LiveVarAnnotation) :
    (new code lv).dead ⊆ restrictedDefs code := by
  intro o ho
  rw [new_dead_mem] at ho
  obtain ⟨k, instr, hk, ho', hm⟩ := ho
  obtain ⟨dst, hdef⟩ := marksDead_defOf hm
  have hk' : code[o]? = some instr := by
    have : o = k := by omega
    rwa [this]
  exact mem_restrictedDefs hk' (defOf_isRestricted hdef)

theorem new_inv {code : List Bytecode} {lv : LiveVarAnnotation}
    (hv : ValidLiveness lv) : GInv (restrictedDefs code) (new code lv) :=
  ⟨new_symm code lv, new_incr hv, new_origins code lv, new_deadSub code lv⟩

theorem getD_map_erase (o : Option (Finset Nat)) (n : Nat) :
    ((o.map fun s => s.erase n).getD ∅) = (o.getD ∅).erase n := by
  cases o <;> simp

theorem reEval_children (g : DefUseGraph) (p : Nat) :
    (reEvaluateDeath g p).children = g.children := by
  unfold reEvaluateDeath
  split
  · split <;> rfl
  · rfl

theorem reEval_parents (g : DefUseGraph) (p : Nat) :
    (reEvaluateDeath g p).parents = g.parents := by
  unfold reEvaluateDeath
  split
  · split <;> rfl
  · rfl

theorem reEval_dead_subset (g : DefUseGraph) (p : Nat) :
    (reEvaluateDeath g p).dead ⊆ insert p g.dead := by
  unfold reEvaluateDeath
  split
  · split
    · exact Finset.Subset.refl _
    · exact Finset.subset_insert _ _
  · exact Finset.Subset.refl _

theorem fold_reEval_children :
    ∀ (l : List Nat) (g : DefUseGraph),
      (l.foldl reEvaluateDeath g).children = g.children := by
  intro l
  induction l with
  | nil => intro g; rfl
  | cons p l ih => intro g; rw [List.foldl_cons, ih, reEval_children]

theorem fold_reEval_parents :
    ∀ (l : List Nat) (g : DefUseGraph),
      (l.foldl reEvaluateDeath g).parents = g.parents := by
  intro l
  induction l with
  | nil => intro g; rfl
  | cons p l ih => intro g; rw [List.foldl_cons, ih, reEval_parents]

theorem fold_reEval_dead_subset :
    ∀ (l : List Nat) (g : DefUseGraph),
      (l.foldl reEvaluateDeath g).dead ⊆ g.dead ∪ l.toFinset := by
  intro l
  induction l with
  | nil => intro g; simp
  | cons p l ih =>
      intro g
      rw [List.foldl_cons]
      refine (ih _).trans ?_
      intro x hx
      rcases Finset.mem_union.mp hx with hx | hx
      · rcases Finset.mem_insert.mp (reEval_dead_subset g p hx) with hx | hx
        · simp [hx]
        · simp [hx]
      · simp [Finset.mem_union, List.mem_toFinset.mp hx]

theorem discP_spec (g : DefUseGraph) (node : Nat)
    (hcond : ∀ p ∈ g.pGet node, (g.children p).isSome = true) :
    ∃ g', disconnectFromParents g node = some (g.pGet node, g') ∧
      (∀ x, g'.parents x = if x = node then none else g.parents x) ∧
      (∀ x, g'.children x =
        if x ∈ g.pGet node then (g.children x).map (fun s => s.erase node)
        else g.children x) ∧
      g'.dead = g.dead := by
  unfold disconnectFromParents
  cases hp : g.parents node with
  | none =>
      have hPempty : g.pGet node = ∅ := by simp [pGet, hp]
      refine ⟨g, by simp [hPempty], ?_, ?_, rfl⟩
      · intro x
        by_cases hx : x = node
        · subst hx; simp [hp]
        · simp [hx]
      · intro x; simp [hPempty]
  | some ps =>
      have hPs : g.pGet node = ps := by simp [pGet, hp]
      dsimp only
      rw [if_pos (by rw [← hPs]; exact hcond)]
      refine ⟨{ g with
          parents := setEntry g.parents node none,
          children := fun x =>
            if x ∈ ps then (g.children x).map (fun s => s.erase node)
            else g.children x }, by rw [hPs], ?_, ?_, rfl⟩
      · intro x; simp [setEntry]
      · intro x; rw [hPs]

theorem discC_spec (g : DefUseGraph) (node : Nat)
    (hcond : ∀ c ∈ g.cGet node, (g.parents c).isSome = true) :
    ∃ g', disconnectFromChildren g node = some (g.cGet node, g') ∧
      (∀ x, g'.children x = if x = node then none else g.children x) ∧
      (∀ x, g'.parents x =
        if x ∈ g.cGet node then (g.parents x).map (fun s => s.erase node)
        else g.parents x) ∧
      g'.dead = g.dead := by
  unfold disconnectFromChildren
  cases hc : g.children node with
  | none =>
      have hCempty : g.cGet node = ∅ := by simp [cGet, hc]
      refine ⟨g, by simp [hCempty], ?_, ?_, rfl⟩
      · intro x
        by_cases hx : x = node
        · subst hx; simp [hc]
        · simp [hx]
      · intro x; simp [hCempty]
  | some cs =>
      have hCs : g.cGet node = cs := by simp [cGet, hc]
      dsimp only
      rw [if_pos (by rw [← hCs]; exact hcond)]
      refine ⟨{ g with
          children := setEntry g.children node none,
          parents := fun x =>
            if x ∈ cs then (g.parents x).map (fun s => s.erase node)
            else g.parents x }, by rw [hCs], ?_, ?_, rfl⟩
      · intro x; simp [setEntry]
      · intro x; rw [hCs]

theorem reconnect_cGet (g : DefUseGraph) (ps cs : Finset Nat) (a : Nat) :
    (reconnect g ps cs).cGet a = g.cGet a ∪ (if a ∈ ps then cs else ∅) := by
  unfold reconnect cGet
  by_cases ha : a ∈ ps
  · by_cases hcs : cs.Nonempty
    · simp [ha, hcs]
    · rw [Finset.not_nonempty_iff_eq_empty] at hcs
      simp [ha, hcs]
  · simp [ha]

theorem reconnect_pGet (g : DefUseGraph) (ps cs : Finset Nat) (b : Nat) :
    (reconnect g ps cs).pGet b = g.pGet b ∪ (if b ∈ cs then ps else ∅) := by
  unfold reconnect pGet
  by_cases hb : b ∈ cs
  · by_cases hps : ps.Nonempty
    · simp [hb, hps]
    · rw [Finset.not_nonempty_iff_eq_empty] at hps
      simp [hb, hps]
  · simp [hb]

theorem reconnect_dead (g : DefUseGraph) (ps cs : Finset Nat) :
    (reconnect g ps cs).dead = g.dead := rfl

theorem removeNode_spec (h : DefUseGraph) (node : Nat) (hs : EdgeSymm h) :
    ∃ g', removeNode h node = some (some (node, g')) ∧
      (∀ a, g'.cGet a =
        (if a = node then ∅
         else if a ∈ h.pGet node then (h.cGet a).erase node
         else h.cGet a) ∪
        (if a ∈ h.pGet node then (h.cGet node).erase node else ∅)) ∧
      (∀ b, g'.pGet b =
        (if b = node then ∅
         else if b ∈ (h.cGet node).erase node then (h.pGet b).erase node
         else h.pGet b) ∪
        (if b ∈ (h.cGet node).erase node then h.pGet node else ∅)) ∧
      g'.dead ⊆ h.dead ∪ h.pGet node := by
  have hcondP : ∀ p ∈ h.pGet node, (h.children p).isSome = true := by
    intro p hp
    exact mem_cGet_isSome ((hs p node).mpr hp)
  obtain ⟨g1, hd1, hp1, hc1, hdead1⟩ := discP_spec h node hcondP
  have hcg1 : ∀ x, g1.cGet x =
      if x ∈ h.pGet node then (h.cGet x).erase node else h.cGet x := by
    intro x
    unfold cGet
    rw [hc1 x]
    by_cases hx : x ∈ h.pGet node
    · simp only [if_pos hx, getD_map_erase]
    · simp [hx]
  have hpg1 : ∀ x, g1.pGet x = if x = node then ∅ else h.pGet x := by
    intro x
    unfold pGet
    rw [hp1 x]
    by_cases hx : x = node
    · simp [hx]
    · simp [hx]
  have hnotC : node ∉ (h.cGet node).erase node := Finset.not_mem_erase _ _
  have hC : g1.cGet node = (h.cGet node).erase node := by
    rw [hcg1 node]
    by_cases hn : node ∈ h.pGet node
    · simp [hn]
    · have : node ∉ h.cGet node := fun hmem => hn ((hs node node).mp hmem)
      simp [hn, Finset.erase_eq_of_not_mem this]
  have hcondC : ∀ c ∈ g1.cGet node, (g1.parents c).isSome = true := by
    intro c hcmem
    rw [hC] at hcmem
    have hcne : c ≠ node := Finset.ne_of_mem_erase hcmem
    have hcmem' : c ∈ h.cGet node := Finset.mem_of_mem_erase hcmem
    rw [hp1 c, if_neg hcne]
    exact mem_pGet_isSome ((hs node c).mp hcmem')
  obtain ⟨g2, hd2, hc2, hp2, hdead2⟩ := discC_spec g1 node hcondC
  rw [hC] at hd2
  have hcg2 : ∀ x, g2.cGet x = if x = node then ∅ else g1.cGet x := by
    intro x
    unfold cGet
    rw [hc2 x]
    by_cases hx : x = node
    · simp [hx]
    · simp [hx]
  have hpg2 : ∀ x, g2.pGet x =
      if x ∈ (h.cGet node).erase node then (g1.pGet x).erase node else g1.pGet x := by
    intro x
    unfold pGet
    rw [hp2 x, hC]
    by_cases hx : x ∈ (h.cGet node).erase node
    · simp only [if_pos hx, getD_map_erase]
    · simp [hx]
  refine ⟨(((h.pGet node).sort (· ≤ ·)).foldl reEvaluateDeath
      (reconnect g2 (h.pGet node) ((h.cGet node).erase node))), ?_, ?_, ?_, ?_⟩
  · unfold removeNode
    rw [hd1]
    dsimp only
    rw [hd2]
  · intro a
    unfold cGet
    rw [fold_reEval_children]
    show (reconnect g2 (h.pGet node) ((h.cGet node).erase node)).cGet a = _
    rw [reconnect_cGet, hcg2 a, hcg1 a]
    rfl
  · intro b
    unfold pGet
    rw [fold_reEval_parents]
    show (reconnect g2 (h.pGet node) ((h.cGet node).erase node)).pGet b = _
    rw [reconnect_pGet, hpg2 b]
    by_cases hb : b = node
    · subst hb
      simp [hnotC, hpg1]
    · simp only [hpg1 b, if_neg hb]
      rfl
  · refine (fold_reEval_dead_subset _ _).trans ?_
    rw [reconnect_dead, hdead2, hdead1]
    intro x hx
    rcases Finset.mem_union.mp hx with hx | hx
    · exact Finset.mem_union_left _ hx
    · exact Finset.mem_union_right _ (by
        rwa [List.mem_toFinset, Finset.mem_sort] at hx)

theorem step_spec {g : DefUseGraph} {n : Nat} {g' : DefUseGraph} (hs : EdgeSymm g)
    (h : removeADeadNode g = some (some (n, g'))) :
    n ∈ g.dead ∧
    (∀ a, g'.cGet a =
      (if a = n then ∅
       else if a ∈ g.pGet n then (g.cGet a).erase n
       else g.cGet a) ∪
      (if a ∈ g.pGet n then (g.cGet n).erase n else ∅)) ∧
    (∀ b, g'.pGet b =
      (if b = n then ∅
       else if b ∈ (g.cGet n).erase n then (g.pGet b).erase n
       else g.pGet b) ∪
      (if b ∈ (g.cGet n).erase n then g.pGet n else ∅)) ∧
    g'.dead ⊆ g.dead.erase n ∪ g.pGet n := by
  by_cases hne : g.dead.Nonempty
  · unfold removeADeadNode at h
    rw [dif_pos hne] at h
    have hs0 : EdgeSymm { g with dead := g.dead.erase (g.dead.max' hne) } := hs
    obtain ⟨g4, heq, hc4, hp4, hd4⟩ := removeNode_spec _ (g.dead.max' hne) hs0
    rw [heq] at h
    simp only [Option.some.injEq, Prod.mk.injEq] at h
    obtain ⟨hn, hg⟩ := h
    subst hn
    subst hg
    exact ⟨Finset.max'_mem _ hne, hc4, hp4, hd4⟩
  · unfold removeADeadNode at h
    rw [dif_neg hne] at h
    exact absurd h (by simp)

theorem step_cGet_iff {g : DefUseGraph} {n : Nat} {g' : DefUseGraph} (hs : EdgeSymm g)
    (h : removeADeadNode g = some (some (n, g'))) (a b : Nat) :
    b ∈ g'.cGet a ↔
      (b ∈ g.cGet a ∧ a ≠ n ∧ b ≠ n) ∨ (a ∈ g.pGet n ∧ b ∈ (g.cGet n).erase n) := by
  obtain ⟨-, hc, -, -⟩ := step_spec hs h
  rw [hc a, Finset.mem_union]
  by_cases ha : a = n
  · subst ha
    simp only [if_pos rfl, Finset.not_mem_empty, false_or]
    by_cases hP : a ∈ g.pGet a
    · simp [hP]
    · simp [hP]
  · by_cases hP : a ∈ g.pGet n
    · simp only [if_neg ha, if_pos hP]
      constructor
      · rintro (hb | hb)
        · exact Or.inl ⟨Finset.mem_of_mem_erase hb, ha, Finset.ne_of_mem_erase hb⟩
        · exact Or.inr ⟨hP, hb⟩
      · rintro (⟨hb, -, hbn⟩ | ⟨-, hb⟩)
        · exact Or.inl (Finset.mem_erase_of_ne_of_mem hbn hb)
        · exact Or.inr hb
    · simp only [if_neg ha, if_neg hP, Finset.not_mem_empty, or_false]
      constructor
      · intro hb
        exact Or.inl ⟨hb, ha, fun hbn => hP ((hs a n).mp (hbn ▸ hb))⟩
      · rintro (⟨hb, -, -⟩ | ⟨hP', -⟩)
        · exact hb
        · exact absurd hP' hP

theorem step_pGet_iff {g : DefUseGraph} {n : Nat} {g' : DefUseGraph} (hs : EdgeSymm g)
    (h : removeADeadNode g = some (some (n, g'))) (a b : Nat) :
    a ∈ g'.pGet b ↔
      (a ∈ g.pGet b ∧ a ≠ n ∧ b ≠ n) ∨ (b ∈ (g.cGet n).erase n ∧ a ∈ g.pGet n) := by
  obtain ⟨-, -, hp, -⟩ := step_spec hs h
  rw [hp b, Finset.mem_union]
  by_cases hb : b = n
  · subst hb
    simp [Finset.not_mem_erase]
  · by_cases hbC : b ∈ (g.cGet n).erase n
    · simp only [if_neg hb, if_pos hbC]
      constructor
      · rintro (ha | ha)
        · exact Or.inl ⟨Finset.mem_of_mem_erase ha, Finset.ne_of_mem_erase ha, hb⟩
        · exact Or.inr ⟨hbC, ha⟩
      · rintro (⟨ha, han, -⟩ | ⟨-, ha⟩)
        · exact Or.inl (Finset.mem_erase_of_ne_of_mem han ha)
        · exact Or.inr ha
    · simp only [if_neg hb, if_neg hbC, Finset.not_mem_empty, or_false]
      constructor
      · intro ha
        refine Or.inl ⟨ha, fun han => ?_, hb⟩
        exact hbC (Finset.mem_erase_of_ne_of_mem hb ((hs n b).mpr (han ▸ ha)))
      · rintro (⟨ha, -, -⟩ | ⟨hbC', -⟩)
        · exact ha
        · exact absurd hbC' hbC

theorem step_symm {g : DefUseGraph} {n : Nat} {g' : DefUseGraph} (hs : EdgeSymm g)
    (h : removeADeadNode g = some (some (n, g'))) : EdgeSymm g' := by
  intro a b
  rw [step_cGet_iff hs h a b, step_pGet_iff hs h a b]
  constructor
  · rintro (⟨hb, ha, hbn⟩ | ⟨hP, hC⟩)
    · exact Or.inl ⟨(hs a b).mp hb, ha, hbn⟩
    · exact Or.inr ⟨hC, hP⟩
  · rintro (⟨hb, ha, hbn⟩ | ⟨hC, hP⟩)
    · exact Or.inl ⟨(hs a b).mpr hb, ha, hbn⟩
    · exact Or.inr ⟨hP, hC⟩

theorem step_incr {g : DefUseGraph} {n : Nat} {g' : DefUseGraph} (hs : EdgeSymm g)
    (hi : EdgesIncreasing g) (h : removeADeadNode g = some (some (n, g'))) :
    EdgesIncreasing g' := by
  intro a b hb
  rcases (step_cGet_iff hs h a b).mp hb with ⟨hb', -, -⟩ | ⟨hP, hC⟩
  · exact hi a b hb'
  · have h1 : a < n := hi a n ((hs a n).mpr hP)
    have h2 : n < b := hi n b (Finset.mem_of_mem_erase hC)
    omega

theorem step_origins {D : Finset Nat} {g : DefUseGraph} {n : Nat} {g' : DefUseGraph}
    (hs : EdgeSymm g) (ho : OriginsIn D g)
    (h : removeADeadNode g = some (some (n, g'))) : OriginsIn D g' := by
  intro a b hb
  rcases (step_cGet_iff hs h a b).mp hb with ⟨hb', -, -⟩ | ⟨hP, -⟩
  · exact ho a b hb'
  · exact ho a n ((hs a n).mpr hP)

theorem step_ginv {D : Finset Nat} {g : DefUseGraph} {n : Nat} {g' : DefUseGraph}
    (hg : GInv D g) (h : removeADeadNode g = some (some (n, g'))) : GInv D g' := by
  refine ⟨step_symm hg.symm h, step_incr hg.symm hg.incr h,
    step_origins hg.symm hg.origins h, ?_⟩
  obtain ⟨-, -, -, hdb⟩ := step_spec hg.symm h
  intro x hx
  rcases Finset.mem_union.mp (hdb hx) with hx' | hx'
  · exact hg.deadSub (Finset.mem_of_mem_erase hx')
  · exact hg.origins x n ((hg.symm x n).mpr hx')

theorem step_untracked_preserved {g : DefUseGraph} {n : Nat} {g' : DefUseGraph} {m : Nat}
    (hs : EdgeSymm g) (h : removeADeadNode g = some (some (n, g')))
    (hm : Untracked g m) : Untracked g' m := by
  obtain ⟨hmd, hme, hmc, hmp⟩ := hm
  refine ⟨?_, ?_, ?_, ?_⟩
  · obtain ⟨-, -, -, hdb⟩ := step_spec hs h
    intro hmem
    rcases Finset.mem_union.mp (hdb hmem) with hx | hx
    · exact hmd (Finset.mem_of_mem_erase hx)
    · exact (hme n).2 hx
  · intro x
    refine ⟨?_, ?_⟩
    · intro hmem
      rcases (step_cGet_iff hs h x m).mp hmem with ⟨hb, -, -⟩ | ⟨-, hC⟩
      · exact (hme x).1 hb
      · exact (hme n).1 (Finset.mem_of_mem_erase hC)
    · intro hmem
      rcases (step_pGet_iff hs h m x).mp hmem with ⟨hb, -, -⟩ | ⟨-, hP⟩
      · exact (hme x).2 hb
      · exact (hme n).2 hP
  · apply Finset.eq_empty_iff_forall_not_mem.mpr
    intro b hb
    rcases (step_cGet_iff hs h m b).mp hb with ⟨hb', -, -⟩ | ⟨hP, -⟩
    · rw [hmc] at hb'
      exact absurd hb' (Finset.not_mem_empty b)
    · exact (hme n).2 hP
  · apply Finset.eq_empty_iff_forall_not_mem.mpr
    intro a ha
    rcases (step_pGet_iff hs h a m).mp ha with ⟨ha', -, -⟩ | ⟨hmC, -⟩
    · rw [hmp] at ha'
      exact absurd ha' (Finset.not_mem_empty a)
    · exact (hme n).1 (Finset.mem_of_mem_erase hmC)

theorem step_untracked_new {D : Finset Nat} {g : DefUseGraph} {n : Nat} {g' : DefUseGraph}
    (hg : GInv D g) (h : removeADeadNode g = some (some (n, g'))) : Untracked g' n := by
  have hs := hg.symm
  have hself : n ∉ g.pGet n := fun hmem =>
    absurd (hg.incr n n ((hs n n).mpr hmem)) (lt_irrefl n)
  obtain ⟨-, -, -, hdb⟩ := step_spec hs h
  refine ⟨?_, ?_, ?_, ?_⟩
  · intro hmem
    rcases Finset.mem_union.mp (hdb hmem) with hx | hx
    · exact absurd hx (Finset.not_mem_erase n g.dead)
    · exact hself hx
  · intro x
    refine ⟨?_, ?_⟩
    · intro hmem
      rcases (step_cGet_iff hs h x n).mp hmem with ⟨-, -, hne⟩ | ⟨-, hC⟩
      · exact hne rfl
      · exact absurd hC (Finset.not_mem_erase n _)
    · intro hmem
      rcases (step_pGet_iff hs h n x).mp hmem with ⟨-, hne, -⟩ | ⟨-, hP⟩
      · exact hne rfl
      · exact hself hP
  · apply Finset.eq_empty_iff_forall_not_mem.mpr
    intro b hb
    rcases (step_cGet_iff hs h n b).mp hb with ⟨-, hne, -⟩ | ⟨hP, -⟩
    · exact hne rfl
    · exact hself hP
  · apply Finset.eq_empty_iff_forall_not_mem.mpr
    intro a ha
    rcases (step_pGet_iff hs h a n).mp ha with ⟨-, -, hne⟩ | ⟨hC, -⟩
    · exact hne rfl
    · exact absurd hC (Finset.not_mem_erase n _)

theorem step_linv {D : Finset Nat} {g : DefUseGraph} {acc : Finset Nat} {n : Nat}
    {g' : DefUseGraph} (hl : LInv D g acc)
    (h : removeADeadNode g = some (some (n, g'))) :
    LInv D g' (insert n acc) ∧ n ∈ D ∧ n ∉ acc := by
  obtain ⟨hg, hacc, haccD⟩ := hl
  obtain ⟨hnd, -, -, -⟩ := step_spec hg.symm h
  have hnacc : n ∉ acc := fun hmem => (hacc n hmem).1 hnd
  have hnD : n ∈ D := hg.deadSub hnd
  refine ⟨⟨step_ginv hg h, ?_, ?_⟩, hnD, hnacc⟩
  · intro m hm
    rcases Finset.mem_insert.mp hm with hm | hm
    · exact hm ▸ step_untracked_new hg h
    · exact step_untracked_preserved hg.symm h (hacc m hm)
  · exact Finset.insert_subset_iff.mpr ⟨hnD, haccD⟩

theorem step_no_panic {g : DefUseGraph} (hs : EdgeSymm g) :
    removeADeadNode g ≠ none := by
  by_cases hne : g.dead.Nonempty
  · unfold removeADeadNode
    rw [dif_pos hne]
    have hs0 : EdgeSymm { g with dead := g.dead.erase (g.dead.max' hne) } := hs
    obtain ⟨g4, heq, -⟩ := removeNode_spec _ (g.dead.max' hne) hs0
    rw [heq]
    simp
  · unfold removeADeadNode
    rw [dif_neg hne]
    simp

theorem loop_no_panic :
    ∀ (fuel : Nat) (g : DefUseGraph) (acc : Finset Nat),
      EdgeSymm g → deadStoresLoop fuel g acc ≠ none := by
  intro fuel
  induction fuel with
  | zero => intro g acc hs; simp [deadStoresLoop]
  | succ fuel ih =>
      intro g acc hs
      unfold deadStoresLoop
      cases hr : removeADeadNode g with
      | none => exact absurd hr (step_no_panic hs)
      | some o =>
          cases o with
          | none => simp
          | some p =>
              obtain ⟨n, g1⟩ := p
              exact ih g1 (insert n acc) (step_symm hs hr)

theorem loop_result_sub {D : Finset Nat} :
    ∀ (fuel : Nat) (g : DefUseGraph) (acc r : Finset Nat),
      LInv D g acc → deadStoresLoop fuel g acc = some (some r) → r ⊆ D := by
  intro fuel
  induction fuel with
  | zero => intro g acc r hl heq; simp [deadStoresLoop] at heq
  | succ fuel ih =>
      intro g acc r hl heq
      unfold deadStoresLoop at heq
      cases hr : removeADeadNode g with
      | none => rw [hr] at heq; exact absurd heq (by simp)
      | some o =>
          rw [hr] at heq
          cases o with
          | none =>
              simp only [Option.some.injEq] at heq
              exact heq ▸ hl.2.2
          | some p =>
              obtain ⟨n, g1⟩ := p
              exact ih g1 (insert n acc) r (step_linv hl hr).1 heq

theorem loop_total {D : Finset Nat} :
    ∀ (fuel : Nat) (g : DefUseGraph) (acc : Finset Nat),
      LInv D g acc → (D \ acc).card < fuel →
      ∃ r, deadStoresLoop fuel g acc = some (some r) ∧ acc ⊆ r ∧ r ⊆ D := by
  intro fuel
  induction fuel with
  | zero => intro g acc hl hcard; omega
  | succ fuel ih =>
      intro g acc hl hcard
      unfold deadStoresLoop
      cases hr : removeADeadNode g with
      | none => exact absurd hr (step_no_panic hl.1.symm)
      | some o =>
          cases o with
          | none => exact ⟨acc, rfl, Finset.Subset.refl _, hl.2.2⟩
          | some p =>
              obtain ⟨n, g1⟩ := p
              obtain ⟨hl1, hnD, hnacc⟩ := step_linv hl hr
              have hmeasure : (D \ insert n acc).card < fuel := by
                have h1 : D \ insert n acc = (D \ acc).erase n := by
                  ext x
                  simp only [Finset.mem_sdiff, Finset.mem_erase, Finset.mem_insert]
                  tauto
                have h2 : n ∈ D \ acc := Finset.mem_sdiff.mpr ⟨hnD, hnacc⟩
                have h3 := Finset.card_erase_lt_of_mem h2
                rw [h1]
                omega
              obtain ⟨r, hr1, hr2, hr3⟩ := ih g1 (insert n acc) hl1 hmeasure
              exact ⟨r, hr1, (Finset.subset_insert _ _).trans hr2, hr3⟩

theorem reachable_symm {code : List Bytecode} {lv : LiveVarAnnotation} {g : DefUseGraph}
    (h : Reachable code lv g) : EdgeSymm g := by
  induction h with
  | base => exact new_symm code lv
  | step hr hstep ih => exact step_symm ih hstep

theorem new_linv {code : List Bytecode} {lv : LiveVarAnnotation}
    (hv : ValidLiveness lv) : LInv (restrictedDefs code) (new code lv) ∅ :=
  ⟨new_inv hv, by simp, Finset.empty_subset _⟩

theorem remove_total {g : DefUseGraph} (hs : EdgeSymm g) (hne : g.dead.Nonempty) :
    ∃ g', removeADeadNode g = some (some (g.dead.max' hne, g')) := by
  unfold removeADeadNode
  rw [dif_pos hne]
  have hs0 : EdgeSymm { g with dead := g.dead.erase (g.dead.max' hne) } := hs
  obtain ⟨g', heq, -, -, -⟩ := removeNode_spec _ (g.dead.max' hne) hs0
  exact ⟨g', heq⟩

theorem incDef_children_ne {g : DefUseGraph} {dst i : Nat} {lv : LiveVarAnnotation}
    {mk : Bool} {o : Nat} (ho : o ≠ i) :
    (incorporateDefinition g dst i lv mk).children o = g.children o := by
  cases hl : lv i dst with
  | none => rw [incDef_children_none hl]
  | some live => rw [incDef_children_some hl, if_neg ho]

theorem incInstr_children_ne {g : DefUseGraph} {i : Nat} {lv : LiveVarAnnotation}
    {instr : Bytecode} {o : Nat} (ho : o ≠ i) :
    (incorporateInstr lv g i instr).children o = g.children o := by
  cases instr with
  | Assign dst src =>
      unfold incorporateInstr
      dsimp only
      by_cases h : dst = src
      · rw [if_pos h]; exact incDef_children_ne ho
      · rw [if_neg h]; exact incDef_children_ne ho
  | Load dst => exact incDef_children_ne ho
  | Other => rfl

theorem populate_children_lt {lv : LiveVarAnnotation} :
    ∀ (rest : List Bytecode) (i : Nat) (g : DefUseGraph) (o : Nat),
      o < i → (populateFromAux lv i rest g).children o = g.children o := by
  intro rest
  induction rest with
  | nil => intro i g o ho; rfl
  | cons c rest ih =>
      intro i g o ho
      simp only [populateFromAux]
      rw [ih (i + 1) _ o (by omega), incInstr_children_ne (by omega)]

theorem incInstr_children_self {g : DefUseGraph} {i : Nat} {lv : LiveVarAnnotation}
    {instr : Bytecode} {dst : Nat} {live : Finset Nat}
    (hdef : defOf instr = some dst) (hlv : lv i dst = some live) :
    (incorporateInstr lv g i instr).children i =
      some ((g.children i).getD ∅ ∪ live) := by
  cases instr with
  | Assign d s =>
      simp only [defOf, Option.some.injEq] at hdef
      subst hdef
      unfold incorporateInstr
      dsimp only
      by_cases h : d = s
      · rw [if_pos h, incDef_children_some hlv, if_pos rfl]
      · rw [if_neg h, incDef_children_some hlv, if_pos rfl]
  | Load d =>
      simp only [defOf, Option.some.injEq] at hdef
      subst hdef
      show (incorporateDefinition g d i lv false).children i = _
      rw [incDef_children_some hlv, if_pos rfl]
  | Other => simp [defOf] at hdef

theorem populate_children_at {lv : LiveVarAnnotation} :
    ∀ (rest : List Bytecode) (i : Nat) (g : DefUseGraph) (k : Nat) (instr : Bytecode)
      (dst : Nat) (live : Finset Nat),
      rest[k]? = some instr → defOf instr = some dst → lv (i + k) dst = some live →
      (populateFromAux lv i rest g).children (i + k) =
        some ((g.children (i + k)).getD ∅ ∪ live) := by
  intro rest
  induction rest with
  | nil => intro i g k instr dst live hk; simp at hk
  | cons c rest ih =>
      intro i g k instr dst live hk hdef hlv
      simp only [populateFromAux]
      cases k with
      | zero =>
          simp only [List.getElem?_cons_zero, Option.some.injEq] at hk
          subst hk
          rw [populate_children_lt rest (i + 1) _ (i + 0) (by omega)]
          exact incInstr_children_self hdef hlv
      | succ k =>
          have hidx : i + (k + 1) = (i + 1) + k := by omega
          rw [hidx] at hlv ⊢
          rw [ih (i + 1) _ k instr dst live (by simpa using hk) hdef hlv,
            incInstr_children_ne (by omega)]

end DefUseGraph

theorem mem_transformAux (dead : Finset Nat) :
    ∀ (rest : List Bytecode) (first o : Nat), o < rest.length → (first + o) ∉ dead →
      rest.getD o .Other ∈ DeadStoreElimination.transformAux dead first rest := by
  intro rest
  induction rest with
  | nil => intro first o ho; simp at ho
  | cons c rest ih =>
      intro first o ho hnd
      cases o with
      | zero =>
          unfold DeadStoreElimination.transformAux
          rw [if_neg (by simpa using hnd)]
          simp
      | succ o =>
          have hnd' : (first + 1) + o ∉ dead := by
            have : (first + 1) + o = first + (o + 1) := by omega
            rw [this]
            exact hnd
          have hmem := ih (first + 1) o (by simpa using ho) hnd'
          unfold DeadStoreElimination.transformAux
          by_cases hf : first ∈ dead
          · rw [if_pos hf]
            simpa using hmem
          · rw [if_neg hf]
            exact List.mem_cons_of_mem _ (by simpa using hmem)

theorem noLiveAnnot_valid : ValidLiveness noLiveAnnot := by
  intro o d s h
  exact absurd h (by simp [noLiveAnnot])

theorem chainGraph_symm : DefUseGraph.EdgeSymm chainGraph := by
  intro a b
  unfold DefUseGraph.cGet DefUseGraph.pGet chainGraph
  by_cases ha0 : a = 0 <;> by_cases ha1 : a = 1 <;> by_cases hb1 : b = 1 <;>
    by_cases hb2 : b = 2 <;> simp_all

/-- Claim C2: when the extraction step removes a dead node n whose parent
set is P and whose child set is C, the resulting graph contains the edge
p -> c in both the children and the parents maps for every (p, c) in
P x C, and n no longer occurs in any edge (stated for a symmetric graph
with no self-loop at n; both properties hold for every graph the pass
builds and evolves). -/
theorem C2_remove_reconnects_and_eliminates
    (g : DefUseGraph) (n : Nat) (g' : DefUseGraph)
    (hs : DefUseGraph.EdgeSymm g) (hself : n ∉ g.pGet n)
    (h : DefUseGraph.removeADeadNode g = some (some (n, g'))) :
    (∀ p ∈ g.pGet n, ∀ c ∈ g.cGet n, c ∈ g'.cGet p ∧ p ∈ g'.pGet c) ∧
    (∀ x, n ∉ g'.cGet x ∧ n ∉ g'.pGet x) ∧ g'.cGet n = ∅ ∧ g'.pGet n = ∅ := by
  have hnc : n ∉ g.cGet n := fun hmem => hself ((hs n n).mp hmem)
  refine ⟨?_, ?_, ?_, ?_⟩
  · intro p hp c hc
    have hcC : c ∈ (g.cGet n).erase n :=
      Finset.mem_erase_of_ne_of_mem (fun hEq => hnc (hEq ▸ hc)) hc
    exact ⟨(DefUseGraph.step_cGet_iff hs h p c).mpr (Or.inr ⟨hp, hcC⟩),
      (DefUseGraph.step_pGet_iff hs h p c).mpr (Or.inr ⟨hcC, hp⟩)⟩
  · intro x
    refine ⟨fun hmem => ?_, fun hmem => ?_⟩
    · rcases (DefUseGraph.step_cGet_iff hs h x n).mp hmem with ⟨-, -, hne⟩ | ⟨-, hC⟩
      · exact hne rfl
      · exact Finset.not_mem_erase n _ hC
    · rcases (DefUseGraph.step_pGet_iff hs h n x).mp hmem with ⟨-, hne, -⟩ | ⟨-, hP⟩
      · exact hne rfl
      · exact hself hP
  · apply Finset.eq_empty_iff_forall_not_mem.mpr
    intro b hb
    rcases (DefUseGraph.step_cGet_iff hs h n b).mp hb with ⟨-, hne, -⟩ | ⟨hP, -⟩
    · exact hne rfl
    · exact hself hP
  · apply Finset.eq_empty_iff_forall_not_mem.mpr
    intro a ha
    rcases (DefUseGraph.step_pGet_iff hs h a n).mp ha with ⟨-, -, hne⟩ | ⟨hC, -⟩
    · exact hne rfl
    · exact Finset.not_mem_erase n _ hC

/-- Claim C3 counterexample: a Load whose destination has a
present-but-empty live-after set is not marked dead by graph
construction, contradicting the claim that it is treated identically to
the absent-entry case. -/
theorem C3_counterexample :
    0 ∉ (DefUseGraph.new loadCode emptyUseAnnot).dead := by decide

/-- Claim C3 amended: for a restricted definition at offset o that is not
a self-assignment and whose destination has a present-but-empty live-after
set, graph construction does not mark o dead; it records a
present-but-empty children entry for o (so such a node is treated
differently from the absent-entry case, which is marked dead). -/
theorem C3_amended_empty_liveness_not_marked_dead
    (code : List Bytecode) (lv : LiveVarAnnotation) (o : Nat) (instr : Bytecode)
    (dst : Nat) (hk : code[o]? = some instr) (hdef : defOf instr = some dst)
    (hns : isSelfAssign instr = false) (hlv : lv o dst = some ∅) :
    o ∉ (DefUseGraph.new code lv).dead ∧
    (DefUseGraph.new code lv).children o = some ∅ := by
  constructor
  · rw [DefUseGraph.new_dead_mem]
    rintro ⟨k, instr', hk', ho, hm⟩
    have hko : k = o := by omega
    subst hko
    rw [hk] at hk'
    injection hk' with hinstr
    subst hinstr
    cases instr with
    | Assign d s =>
        simp only [defOf, Option.some.injEq] at hdef
        subst hdef
        simp only [isSelfAssign, beq_eq_false_iff_ne, ne_eq] at hns
        rcases hm with hm | hm
        · exact hns hm
        · rw [hlv] at hm
          exact Option.noConfusion hm
    | Load d =>
        simp only [defOf, Option.some.injEq] at hdef
        subst hdef
        rw [MarksDead, hlv] at hm
        exact Option.noConfusion hm
    | Other => simp [defOf] at hdef
  · have := DefUseGraph.populate_children_at code 0 ⟨fun _ => none, fun _ => none, ∅⟩
      o instr dst ∅ (by simpa using hk) hdef (by simpa using hlv)
    unfold DefUseGraph.new
    simpa using this

/-- Claim C4: a self-assignment at offset o is marked dead by graph
construction regardless of liveness, and when its destination has a
live-after entry, the edge from o to every usage offset u is inserted
in both adjacency maps, so a forced-dead node need not be a leaf. -/
theorem C4_self_assign_forced_dead_with_edges
    (code : List Bytecode) (lv : LiveVarAnnotation) (o dst : Nat)
    (h : code[o]? = some (.Assign dst dst)) :
    o ∈ (DefUseGraph.new code lv).dead ∧
    ∀ live, lv o dst = some live →
      ∀ u ∈ live, u ∈ (DefUseGraph.new code lv).cGet o ∧
        o ∈ (DefUseGraph.new code lv).pGet u := by
  constructor
  · rw [DefUseGraph.new_dead_mem]
    exact ⟨o, .Assign dst dst, by simpa using h, by omega, Or.inl rfl⟩
  · intro live hlv u hu
    constructor
    · rw [DefUseGraph.new_cGet_mem]
      exact ⟨o, .Assign dst dst, dst, live, by simpa using h, rfl, by omega, hlv, hu⟩
    · rw [DefUseGraph.new_pGet_mem]
      exact ⟨o, .Assign dst dst, dst, live, by simpa using h, rfl, by omega, hlv, hu⟩

/-- Claim C5: edge symmetry is an invariant: in every graph state reachable
by constructing a DefUseGraph and performing any number of dead-node
removal steps, b is a child of a exactly when a is a parent of b. -/
theorem C5_edge_symmetry_invariant (code : List Bytecode) (lv : LiveVarAnnotation)
    (g : DefUseGraph) (h : DefUseGraph.Reachable code lv g) :
    DefUseGraph.EdgeSymm g :=
  DefUseGraph.reachable_symm h

/-- Claim C6: every offset in the extracted dead-store set is the offset of
an Assign or Load instruction of the original body, and the transform
retains every instruction whose offset is not in that set — so no
instruction of any other kind is ever removed. -/
theorem C6_dead_only_restricted_definitions
    (code : List Bytecode) (lv : LiveVarAnnotation) (fuel : Nat) (r : Finset Nat)
    (hv : ValidLiveness lv)
    (heq : DefUseGraph.deadStores (DefUseGraph.new code lv) fuel = some (some r)) :
    (∀ o ∈ r, o < code.length ∧ isRestrictedDef (code.getD o .Other) = true) ∧
    (∀ o, o < code.length → o ∉ r →
      code.getD o .Other ∈ DeadStoreElimination.transform code r) := by
  have hsub : r ⊆ restrictedDefs code :=
    DefUseGraph.loop_result_sub fuel _ ∅ r (DefUseGraph.new_linv hv) heq
  constructor
  · intro o ho
    have hmem := hsub ho
    simp only [restrictedDefs, Finset.mem_filter, Finset.mem_range] at hmem
    exact hmem
  · intro o hlt hnr
    have := mem_transformAux r code 0 o hlt (by simpa using hnr)
    exact this

/-- Claim C7: for a valid liveness annotation, the extraction loop
terminates within the number of restricted definitions many removal
iterations: with fuel card (restrictedDefs code) + 1 it completes, and the
resulting set has at most that many offsets (no offset is popped twice). -/
theorem C7_extraction_terminates_bounded
    (code : List Bytecode) (lv : LiveVarAnnotation) (hv : ValidLiveness lv) :
    ∃ r, DefUseGraph.deadStores (DefUseGraph.new code lv)
        ((restrictedDefs code).card + 1) = some (some r) ∧
      r.card ≤ (restrictedDefs code).card := by
  obtain ⟨r, hr, -, hsub⟩ := DefUseGraph.loop_total ((restrictedDefs code).card + 1)
      (DefUseGraph.new code lv) ∅ (DefUseGraph.new_linv hv) (by simp)
  exact ⟨r, hr, Finset.card_le_card hsub⟩

/-- Claim C8: for a non-native function, the pass signals a fatal error
exactly when the live-variable annotation is missing: with it missing the
pass aborts; with it present it never signals an error, and with a valid
annotation it returns transformed data. -/
theorem C8_missing_annotation_is_fatal (data : FunctionData) :
    (data.annotations.liveVar = none → DeadStoreElimination.process false data = none) ∧
    (∀ lv, data.annotations.liveVar = some lv →
      DeadStoreElimination.process false data ≠ none) ∧
    (∀ lv, data.annotations.liveVar = some lv → ValidLiveness lv →
      ∃ d, DeadStoreElimination.process false data = some (some d)) := by
  refine ⟨?_, ?_, ?_⟩
  · intro h
    simp [DeadStoreElimination.process, h]
  · intro lv hlv
    unfold DeadStoreElimination.process
    rw [if_neg (by simp), hlv]
    dsimp only
    have hnp := DefUseGraph.loop_no_panic ((restrictedDefs data.code).card + 1)
      (DefUseGraph.new data.code lv) ∅ (DefUseGraph.new_symm data.code lv)
    cases hds : DefUseGraph.deadStores (DefUseGraph.new data.code lv)
        ((restrictedDefs data.code).card + 1) with
    | none => exact absurd hds hnp
    | some o =>
        cases o with
        | none => simp
        | some r => simp
  · intro lv hlv hv
    unfold DeadStoreElimination.process
    rw [if_neg (by simp), hlv]
    dsimp only
    obtain ⟨r, hr, -, -⟩ := DefUseGraph.loop_total ((restrictedDefs data.code).card + 1)
      (DefUseGraph.new data.code lv) ∅ (DefUseGraph.new_linv hv) (by simp)
    rw [show DefUseGraph.deadStores (DefUseGraph.new data.code lv)
        ((restrictedDefs data.code).card + 1) = some (some r) from hr]
    exact ⟨_, rfl⟩

/-- Claim C9: for a non-native function with a valid liveness annotation,
process returns data whose annotation bundle is empty and whose fields
other than the code and the annotations are unchanged; a native function
is returned entirely unchanged, annotations included. -/
theorem C9_process_frame_and_annotation_clearing (data : FunctionData) :
    (∀ lv, data.annotations.liveVar = some lv → ValidLiveness lv →
      ∃ d, DeadStoreElimination.process false data = some (some d) ∧
        d.annotations = Annotations.empty ∧ d.rest = data.rest) ∧
    (∀ d : FunctionData, DeadStoreElimination.process true d = some (some d)) := by
  constructor
  · intro lv hlv hv
    unfold DeadStoreElimination.process
    rw [if_neg (by simp), hlv]
    dsimp only
    obtain ⟨r, hr, -, -⟩ := DefUseGraph.loop_total ((restrictedDefs data.code).card + 1)
      (DefUseGraph.new data.code lv) ∅ (DefUseGraph.new_linv hv) (by simp)
    rw [show DefUseGraph.deadStores (DefUseGraph.new data.code lv)
        ((restrictedDefs data.code).card + 1) = some (some r) from hr]
    exact ⟨_, rfl, rfl, rfl⟩
  · intro d
    rfl

/-- Claim C10: in every reachable graph state, the two panic branches of
the disconnect helpers are unreachable — a parent always has a children
entry and a child always has a parents entry — and hence neither a single
removal step nor the dead-store extraction loop ever panics. -/
theorem C10_disconnect_panics_unreachable
    (code : List Bytecode) (lv : LiveVarAnnotation) (g : DefUseGraph)
    (h : DefUseGraph.Reachable code lv g) :
    (∀ m p, p ∈ g.pGet m → (g.children p).isSome = true) ∧
    (∀ m c, c ∈ g.cGet m → (g.parents c).isSome = true) ∧
    DefUseGraph.removeADeadNode g ≠ none ∧
    (∀ fuel acc, DefUseGraph.deadStoresLoop fuel g acc ≠ none) := by
  have hs := DefUseGraph.reachable_symm h
  refine ⟨?_, ?_, DefUseGraph.step_no_panic hs, ?_⟩
  · intro m p hp
    exact DefUseGraph.mem_cGet_isSome ((hs p m).mpr hp)
  · intro m c hc
    exact DefUseGraph.mem_pGet_isSome ((hs m c).mp hc)
  · intro fuel acc
    exact DefUseGraph.loop_no_panic fuel g acc hs

theorem reconnect_empty (g : DefUseGraph) : DefUseGraph.reconnect g ∅ ∅ = g := by
  unfold DefUseGraph.reconnect
  obtain ⟨c, p, d⟩ := g
  congr 1

theorem removeNode_isolated {g : DefUseGraph} {node : Nat}
    (hp : g.parents node = none) (hc : g.children node = none) :
    DefUseGraph.removeNode g node = some (some (node, g)) := by
  have hdp : DefUseGraph.disconnectFromParents g node = some (∅, g) := by
    unfold DefUseGraph.disconnectFromParents
    rw [hp]
  have hdc : DefUseGraph.disconnectFromChildren g node = some (∅, g) := by
    unfold DefUseGraph.disconnectFromChildren
    rw [hc]
  unfold DefUseGraph.removeNode
  rw [hdp]
  dsimp only
  rw [hdc]
  dsimp only
  rw [Finset.sort_empty, List.foldl_nil, reconnect_empty]

theorem removeADead_of_empty {g : DefUseGraph} (h : g.dead = ∅) :
    DefUseGraph.removeADeadNode g = some none := by
  unfold DefUseGraph.removeADeadNode
  rw [dif_neg (by simp [h])]

theorem deadStoresLoop_succ (fuel : Nat) (g : DefUseGraph) (acc : Finset Nat) :
    DefUseGraph.deadStoresLoop (fuel + 1) g acc =
      match DefUseGraph.removeADeadNode g with
      | none => none
      | some none => some (some acc)
      | some (some (n, g1)) => DefUseGraph.deadStoresLoop fuel g1 (insert n acc) := rfl

theorem eval_dead_loadOther :
    DefUseGraph.deadStores (DefUseGraph.new loadOtherCode noLiveAnnot) 2 =
      some (some {0}) := by
  have hne : (DefUseGraph.new loadOtherCode noLiveAnnot).dead.Nonempty := ⟨0, by decide⟩
  have hmax : (DefUseGraph.new loadOtherCode noLiveAnnot).dead.max' hne = 0 := by
    apply le_antisymm
    · apply Finset.max'_le
      intro y hy
      have hy0 : y ∈ ({0} : Finset Nat) := by
        have hd : (DefUseGraph.new loadOtherCode noLiveAnnot).dead = {0} := by decide
        rwa [hd] at hy
      have : y = 0 := by simpa using hy0
      omega
    · exact Finset.le_max' _ 0 (by decide)
  have hstep : DefUseGraph.removeADeadNode (DefUseGraph.new loadOtherCode noLiveAnnot) =
      some (some (0, { DefUseGraph.new loadOtherCode noLiveAnnot with
        dead := (DefUseGraph.new loadOtherCode noLiveAnnot).dead.erase 0 })) := by
    unfold DefUseGraph.removeADeadNode
    rw [dif_pos hne, hmax]
    exact removeNode_isolated rfl rfl
  show DefUseGraph.deadStoresLoop (1 + 1) (DefUseGraph.new loadOtherCode noLiveAnnot) ∅ =
    some (some {0})
  rw [deadStoresLoop_succ, hstep]
  dsimp only
  rw [show (1 : Nat) = 0 + 1 from rfl, deadStoresLoop_succ,
    removeADead_of_empty (by decide)]
  decide

/-- Witness for C2 on the concrete chain 0 -> 1 -> 2 with node 1 dead:
after the step, the edge 0 -> 2 exists in both maps and node 1 occurs in
no edge. -/
theorem C2_witness :
    2 ∈ (DefUseGraph.afterStep chainGraph).cGet 0 ∧
    0 ∈ (DefUseGraph.afterStep chainGraph).pGet 2 ∧
    1 ∉ (DefUseGraph.afterStep chainGraph).cGet 0 ∧
    (DefUseGraph.afterStep chainGraph).cGet 1 = ∅ ∧
    (DefUseGraph.afterStep chainGraph).pGet 1 = ∅ := by
  have hne : chainGraph.dead.Nonempty := ⟨1, by decide⟩
  obtain ⟨g', heq⟩ := DefUseGraph.remove_total chainGraph_symm hne
  have hmax : chainGraph.dead.max' hne = 1 := by
    apply le_antisymm
    · apply Finset.max'_le
      intro y hy
      have hy1 : y ∈ ({1} : Finset Nat) := hy
      have : y = 1 := by simpa using hy1
      omega
    · exact Finset.le_max' _ 1 (by decide)
  rw [hmax] at heq
  have hAfter : DefUseGraph.afterStep chainGraph = g' := by
    unfold DefUseGraph.afterStep
    rw [heq]
  have h := C2_remove_reconnects_and_eliminates chainGraph 1 g' chainGraph_symm
    (by decide) heq
  rw [hAfter]
  exact ⟨(h.1 0 (by decide) 2 (by decide)).1, (h.1 0 (by decide) 2 (by decide)).2,
    (h.2.1 0).1, h.2.2.1, h.2.2.2⟩

/-- Witness for the amended C3 on a concrete load with a
present-but-empty live-after set. -/
theorem C3_amended_witness :
    0 ∉ (DefUseGraph.new loadCode emptyUseAnnot).dead ∧
    (DefUseGraph.new loadCode emptyUseAnnot).children 0 = some ∅ :=
  C3_amended_empty_liveness_not_marked_dead loadCode emptyUseAnnot 0 (.Load 0) 0
    (by decide) rfl rfl (by decide)

/-- Witness for C4 on a concrete self-assignment whose target is live. -/
theorem C4_witness :
    0 ∈ (DefUseGraph.new selfAssignCode selfAssignAnnot).dead ∧
    1 ∈ (DefUseGraph.new selfAssignCode selfAssignAnnot).cGet 0 ∧
    0 ∈ (DefUseGraph.new selfAssignCode selfAssignAnnot).pGet 1 := by
  have h := C4_self_assign_forced_dead_with_edges selfAssignCode selfAssignAnnot 0 0
    (by decide)
  have h2 := h.2 {1} (by decide) 1 (by decide)
  exact ⟨h.1, h2.1, h2.2⟩

/-- Witness for C5 at the constructed graph of a concrete function. -/
theorem C5_witness :
    1 ∈ (DefUseGraph.new selfAssignCode selfAssignAnnot).cGet 0 ↔
      0 ∈ (DefUseGraph.new selfAssignCode selfAssignAnnot).pGet 1 :=
  C5_edge_symmetry_invariant selfAssignCode selfAssignAnnot _
    DefUseGraph.Reachable.base 0 1

/-- Witness for C6 on a concrete program: offset 0 of the extracted set is
a Load, and the Other instruction at offset 1 is retained. -/
theorem C6_witness :
    (0 < loadOtherCode.length ∧ isRestrictedDef (loadOtherCode.getD 0 .Other) = true) ∧
    loadOtherCode.getD 1 .Other ∈ DeadStoreElimination.transform loadOtherCode {0} := by
  have h := C6_dead_only_restricted_definitions loadOtherCode noLiveAnnot 2 {0}
    noLiveAnnot_valid eval_dead_loadOther
  exact ⟨h.1 0 (by decide), h.2 1 (by decide) (by decide)⟩

/-- Witness for C7 on a concrete program with a valid annotation. -/
theorem C7_witness :
    (DefUseGraph.deadStores (DefUseGraph.new loadCode noLiveAnnot)
      ((restrictedDefs loadCode).card + 1)).isSome = true := by
  obtain ⟨r, hr, -⟩ := C7_extraction_terminates_bounded loadCode noLiveAnnot
    noLiveAnnot_valid
  rw [hr]
  rfl

/-- Witness for C8 on concrete function data with and without the
annotation. -/
theorem C8_witness :
    DeadStoreElimination.process false dataMissingAnnot = none ∧
    DeadStoreElimination.process false dataWithAnnot ≠ none ∧
    (DeadStoreElimination.process false dataWithAnnot).isSome = true := by
  obtain ⟨d, hd⟩ := (C8_missing_annotation_is_fatal dataWithAnnot).2.2 noLiveAnnot rfl
    noLiveAnnot_valid
  refine ⟨(C8_missing_annotation_is_fatal dataMissingAnnot).1 rfl,
    (C8_missing_annotation_is_fatal dataWithAnnot).2.1 noLiveAnnot rfl, ?_⟩
  rw [hd]
  rfl

/-- Witness for C9 on concrete function data. -/
theorem C9_witness :
    (DeadStoreElimination.processedOf false dataWithAnnot).annotations =
      Annotations.empty ∧
    (DeadStoreElimination.processedOf false dataWithAnnot).rest = dataWithAnnot.rest ∧
    DeadStoreElimination.process true dataWithAnnot = some (some dataWithAnnot) := by
  have h := C9_process_frame_and_annotation_clearing dataWithAnnot
  obtain ⟨d, hd, hann, hrest⟩ := h.1 noLiveAnnot rfl noLiveAnnot_valid
  have hpo : DeadStoreElimination.processedOf false dataWithAnnot = d := by
    unfold DeadStoreElimination.processedOf
    rw [hd]
  rw [hpo]
  exact ⟨hann, hrest, h.2 dataWithAnnot⟩

/-- Witness for C10 at the constructed graph of a concrete function. -/
theorem C10_witness :
    DefUseGraph.removeADeadNode (DefUseGraph.new loadCode noLiveAnnot) ≠ none ∧
    DefUseGraph.deadStoresLoop 2 (DefUseGraph.new loadCode noLiveAnnot) ∅ ≠ none := by
  have h := C10_disconnect_panics_unreachable loadCode noLiveAnnot _
    DefUseGraph.Reachable.base
  exact ⟨h.2.2.1, h.2.2.2 2 ∅⟩
